import Mathlib

/-!
Verification of the LearnCC table-format and cache core against its
natural-language specification.  Byte strings are modelled as `List Nat`
(each element a byte value), machine integers as `Nat` with explicit
`% 2^w` where overflow matters, and fallible operations as
`Option`/`Except`.  Every definition is translated from the C++ source;
the few constants whose defining header is not part of the provided
sources are marked `Modelled from the spec:` in their doc comment.
-/

/-! ## Byte coding helpers (util/coding)

Modelled from the spec: `util/coding.{h,cc}` is not among the provided
sources; the spec (section 6) fixes all integers as little-endian and the
varint fields as the usual base-128 varint32/varint64 encodings used
throughout, so the encoders/decoders below follow that layout. -/

/-- Base-128 little-endian varint encoder loop (`EncodeVarint32`/`PutVarint64`).
`fuel` only drives structural recursion; `fuel = v` always suffices because
the value shrinks by a factor of 128 each step. -/
def putVarintAux : Nat → Nat → List Nat
  | 0, v => [v]
  | fuel + 1, v => if v < 128 then [v] else (v % 128 + 128) :: putVarintAux fuel (v / 128)

/-- Varint encoding of `v`: 7 value bits per byte, low group first,
high bit of a byte set iff more bytes follow. -/
def putVarint (v : Nat) : List Nat := putVarintAux v v

/-- Varint decoder (unbounded width; used by the record-level decoder). -/
def getVarint : List Nat → Option (Nat × List Nat)
  | [] => none
  | b :: rest =>
    if b < 128 then some (b, rest)
    else
      match getVarint rest with
      | none => none
      | some (v, r) => some (b % 128 + v * 128, r)

/-- `GetVarint64Ptr`: bounded varint64 decoder; fails on truncation or when
the shift would exceed 63, accumulating mod `2^64` exactly as the `uint64_t`
arithmetic does. -/
def getVarint64Loop : List Nat → Nat → Nat → Option (Nat × List Nat)
  | [], _, _ => none
  | b :: rest, shift, acc =>
    if shift ≤ 63 then
      if 128 ≤ b then getVarint64Loop rest (shift + 7) ((acc ||| ((b % 128) <<< shift)) % 2 ^ 64)
      else some ((acc ||| (b <<< shift)) % 2 ^ 64, rest)
    else none

/-- `GetVarint64` on a byte list, returning the value and the remaining bytes. -/
def getVarint64 (l : List Nat) : Option (Nat × List Nat) := getVarint64Loop l 0 0

/-- `PutFixed32`: 4 little-endian bytes. -/
def putFixed32 (v : Nat) : List Nat :=
  [v % 256, v / 256 % 256, v / 65536 % 256, v / 16777216 % 256]

/-- `DecodeFixed32`: little-endian 32-bit read of the first 4 bytes. -/
def DecodeFixed32 (l : List Nat) : Nat :=
  l.getD 0 0 + l.getD 1 0 * 256 + l.getD 2 0 * 65536 + l.getD 3 0 * 16777216

/-- `PutFixed64`/`EncodeFixed64`: 8 little-endian bytes. -/
def putFixed64 (v : Nat) : List Nat :=
  [v % 256, v / 256 ^ 1 % 256, v / 256 ^ 2 % 256, v / 256 ^ 3 % 256,
   v / 256 ^ 4 % 256, v / 256 ^ 5 % 256, v / 256 ^ 6 % 256, v / 256 ^ 7 % 256]

/-- `DecodeFixed64`: little-endian 64-bit read of the first 8 bytes. -/
def DecodeFixed64 (l : List Nat) : Nat :=
  l.getD 0 0 + l.getD 1 0 * 256 ^ 1 + l.getD 2 0 * 256 ^ 2 + l.getD 3 0 * 256 ^ 3 +
  l.getD 4 0 * 256 ^ 4 + l.getD 5 0 * 256 ^ 5 + l.getD 6 0 * 256 ^ 6 + l.getD 7 0 * 256 ^ 7

/-- Read exactly `n` bytes from the front of `l` (fails when fewer remain). -/
def readN (n : Nat) (l : List Nat) : Option (List Nat × List Nat) :=
  if n ≤ l.length then some (l.take n, l.drop n) else none

/-! ## Status (util/status.cc): tagged error kind plus free-form message. -/

/-- The `Status` error taxonomy of `util/status.cc` (`kOk`, `kNotFound`,
`kCorruption`, `kNotSupported`, `kInvalidArgument`, `kIOError`). -/
inductive Status where
  | ok : Status
  | notFound (msg : String)
  | corruption (msg : String)
  | notSupported (msg : String)
  | invalidArgument (msg : String)
  | ioError (msg : String)
deriving DecidableEq, Repr

/-! ## Internal keys and their comparator (db/dbformat.cc) -/

/-- `kMaxSequenceNumber = (1 << 56) - 1` (spec section 3: `sequence: u56`). -/
def kMaxSequenceNumber : Nat := 2 ^ 56 - 1

/-- Modelled from the spec: the `ValueType` enum lives in `db/dbformat.h`,
which is not among the provided sources.  The spec fixes the tag set as
{Deletion, Value} with ties broken by decreasing numeric tag, and
`dbformat.cc` asserts `t <= kValueTypeForSeek` for every packed type. -/
def kTypeDeletion : Nat := 0

/-- Modelled from the spec: see `kTypeDeletion`. -/
def kTypeValue : Nat := 1

/-- Modelled from the spec: `kValueTypeForSeek` of `db/dbformat.h` is the
"seek" sentinel type; `PackSequenceAndType`'s assertion `t <= kValueTypeForSeek`
(dbformat.cc line 15) forces it to be the numerically largest packed type. -/
def kValueTypeForSeek : Nat := kTypeValue

/-- `PackSequenceAndType(seq, t) = (seq << 8) | t`. -/
def PackSequenceAndType (seq t : Nat) : Nat := (seq <<< 8) ||| t

/-- `ExtractUserKey`: an internal key minus its 8-byte trailer. -/
def ExtractUserKey (k : List Nat) : List Nat := k.take (k.length - 8)

/-- The packed 64-bit trailer of an internal key, as read by
`DecodeFixed64(akey.data() + akey.size() - 8)`. -/
def tagOf (k : List Nat) : Nat := DecodeFixed64 (k.drop (k.length - 8))

/-- The 56-bit sequence number of an internal key (high 56 bits of the tag). -/
def sequenceOf (k : List Nat) : Nat := tagOf k / 256

/-- The 8-bit type of an internal key (low 8 bits of the tag). -/
def typeOf (k : List Nat) : Nat := tagOf k % 256

/-- `InternalKeyComparator::Compare`: user comparator on the user-key
portions; on a tie, the larger packed trailer sorts first. -/
def InternalKeyComparator.Compare (ucmp : List Nat → List Nat → Int)
    (akey bkey : List Nat) : Int :=
  if ucmp (ExtractUserKey akey) (ExtractUserKey bkey) = 0 then
    if DecodeFixed64 (akey.drop (akey.length - 8)) > DecodeFixed64 (bkey.drop (bkey.length - 8))
    then -1
    else if DecodeFixed64 (akey.drop (akey.length - 8)) < DecodeFixed64 (bkey.drop (bkey.length - 8))
    then 1 else 0
  else ucmp (ExtractUserKey akey) (ExtractUserKey bkey)

/-- The default bytewise-comparator ordering on byte strings (memcmp order,
then by length); used to instantiate the user comparator on examples. -/
def BytewiseCompare : List Nat → List Nat → Int
  | [], [] => 0
  | [], _ :: _ => -1
  | _ :: _, [] => 1
  | a :: as, b :: bs => if a < b then -1 else if b < a then 1 else BytewiseCompare as bs

/-- `LookupKey::LookupKey(user_key, s)`: varint32 of `user_key.size() + 8`,
the user key bytes, then the fixed 8-byte tag
`PackSequenceAndType(s, kValueTypeForSeek)` (dbformat.cc lines 153-180). -/
def LookupKey (user_key : List Nat) (s : Nat) : List Nat :=
  putVarint (user_key.length + 8) ++ user_key ++
    putFixed64 (PackSequenceAndType s kValueTypeForSeek)

/-! ## Filter block reader (table/filter_block.cc) -/

/-- State of a `FilterBlockReader`: the injected policy's membership test,
the raw trailer contents (`data_`), the byte position of the offset array
(`offset_ - data_`), the number of offset entries (`num_`) and `base_lg_`.
An unparseable trailer leaves `num = 0` (the `data_ == NULL` no-op state). -/
structure FilterBlockReader where
  policy : List Nat → List Nat → Bool
  contents : List Nat
  offset : Nat
  num : Nat
  base_lg : Nat

/-- `FilterBlockReader::FilterBlockReader` (filter_block.cc lines 126-136):
requires at least 5 trailer bytes, reads `base_lg_` from the last byte and
the offset-array position from the preceding fixed32, and validates that
position against the contents size. -/
def FilterBlockReader.construct (policy : List Nat → List Nat → Bool)
    (contents : List Nat) : FilterBlockReader :=
  let n := contents.length
  if n < 5 then ⟨policy, contents, 0, 0, 0⟩
  else
    let blg := contents.getD (n - 1) 0
    let last_word := DecodeFixed32 (contents.drop (n - 5))
    if last_word > n - 5 then ⟨policy, contents, 0, 0, blg⟩
    else ⟨policy, contents, last_word, (n - 5 - last_word) / 4, blg⟩

/-- `FilterBlockReader::KeyMayMatch` (filter_block.cc lines 138-156):
bucket index `block_offset >> base_lg_`; inside the offset table, a valid
range `[start, limit)` is handed to the policy, `start == limit` with an
out-of-range `limit` answers `false`, and every other malformed case
answers `true`. -/
def FilterBlockReader.KeyMayMatch (r : FilterBlockReader) (block_offset : Nat)
    (key : List Nat) : Bool :=
  let index := block_offset >>> r.base_lg
  if index < r.num then
    let start := DecodeFixed32 (r.contents.drop (r.offset + index * 4))
    let limit := DecodeFixed32 (r.contents.drop (r.offset + index * 4 + 4))
    if start ≤ limit ∧ limit ≤ r.offset then
      r.policy key ((r.contents.drop start).take (limit - start))
    else if start = limit then false
    else true
  else true

/-! ## Block handle, footer and block reading (table/format.cc) -/

/-- A `BlockHandle`: offset and size of a block in the table file. -/
structure BlockHandle where
  offset : Nat
  size : Nat
deriving DecidableEq, Repr

/-- Modelled from the spec: `BlockHandle::kMaxEncodedLength = 10 + 10`
(spec section 6: max encoded length per handle = 20 bytes; the constant
itself lives in `table/format.h`, not among the provided sources). -/
def kMaxEncodedLength : Nat := 20

/-- Modelled from the spec: footer size is fixed at
`2 * kMaxEncodedLength + 8 = 48` bytes (spec section 6). -/
def kEncodedLength : Nat := 2 * kMaxEncodedLength + 8

/-- Modelled from the spec: the 8-byte magic constant stamped at the file
tail (`kTableMagicNumber` of `table/format.h`, not among the provided
sources; its concrete value does not affect any claim). -/
def kTableMagicNumber : Nat := 0xdb4775248b80fb57

/-- Modelled from the spec: `kBlockTrailerSize = 5` — a 1-byte compression
type tag plus a 4-byte checksum (spec section 6). -/
def kBlockTrailerSize : Nat := 5

/-- Modelled from the spec: `kNoCompression` / `kSnappyCompression` are the
two recognized compression-type bytes (`include/leveldb/options.h`, not
among the provided sources). -/
def kNoCompression : Nat := 0

/-- Modelled from the spec: see `kNoCompression`. -/
def kSnappyCompression : Nat := 1

/-- `BlockHandle::EncodeTo`: varint64 offset then varint64 size. -/
def BlockHandle.EncodeTo (h : BlockHandle) : List Nat :=
  putVarint h.offset ++ putVarint h.size

/-- `BlockHandle::DecodeFrom` (format.cc lines 124-132): two varint64 reads,
any failure yielding `Corruption("bad block handle")`; on success the input
is advanced past the consumed bytes. -/
def BlockHandle.DecodeFrom (input : List Nat) : Except Status (BlockHandle × List Nat) :=
  match getVarint64 input with
  | none => .error (.corruption "bad block handle")
  | some (off, r1) =>
    match getVarint64 r1 with
    | none => .error (.corruption "bad block handle")
    | some (sz, r2) => .ok (⟨off, sz⟩, r2)

/-- A decoded `Footer`: metaindex handle then index handle. -/
structure Footer where
  metaindex_handle : BlockHandle
  index_handle : BlockHandle
deriving DecidableEq, Repr

/-- `Footer::EncodeTo` (format.cc lines 134-145): both handles, zero-padding
to exactly `2 * kMaxEncodedLength` bytes (`resize` also truncates), then the
magic constant low 32 bits first. -/
def Footer.EncodeTo (f : Footer) : List Nat :=
  let enc := f.metaindex_handle.EncodeTo ++ f.index_handle.EncodeTo
  (enc.take (2 * kMaxEncodedLength) ++
      List.replicate (2 * kMaxEncodedLength - enc.length) 0) ++
    putFixed32 (kTableMagicNumber % 2 ^ 32) ++ putFixed32 (kTableMagicNumber / 2 ^ 32)

/-- The raw memory read of `n` bytes at byte offset `off`:  `none` models an
out-of-bounds access (which in the C++ is undefined behaviour, not a code
path). -/
def readBytesAt (input : List Nat) (off n : Nat) : Option (List Nat) :=
  if off + n ≤ input.length then some ((input.drop off).take n) else none

/-- The magic number `Footer::DecodeFrom` reassembles from bytes
`[kEncodedLength - 8, kEncodedLength)` of its input: low 32 bits first. -/
def footerMagicOf (magicBytes : List Nat) : Nat :=
  (DecodeFixed32 (magicBytes.drop 4)) <<< 32 ||| DecodeFixed32 magicBytes

/-- `Footer::DecodeFrom` (format.cc lines 147-171) as a total function: the
outer `Option` is `none` exactly when the unconditional magic read at offset
`kEncodedLength - 8` would fall outside the input.  With the magic in
bounds: a mismatch is `Corruption` before any handle parsing; otherwise the
metaindex then index handles are decoded, propagating the first failure, and
on success the input is left pointing just past the magic. -/
def Footer.DecodeFrom (input : List Nat) : Option (Except Status (Footer × List Nat)) :=
  match readBytesAt input (kEncodedLength - 8) 8 with
  | none => none
  | some magicBytes =>
    some (
      if footerMagicOf magicBytes ≠ kTableMagicNumber then
        .error (.corruption "not an sstable (bad magic number)")
      else
        match BlockHandle.DecodeFrom input with
        | .error e => .error e
        | .ok (mh, r1) =>
          match BlockHandle.DecodeFrom r1 with
          | .error e => .error e
          | .ok (ih, _) => .ok (⟨mh, ih⟩, input.drop kEncodedLength))

/-- `ReadOptions`: only the `verify_checksums` flag matters to `ReadBlock`. -/
structure ReadOptions where
  verify_checksums : Bool

/-- `ReadBlock` (format.cc lines 173-258), parameterized by its external
collaborators: the byte source (`file->Read`, which may return fewer bytes
than requested), the checksum pair (`crc32c::Value` / `crc32c::Unmask`,
whose implementation `util/crc32c.cc` is not among the provided sources) and
the decompressor (`port::Snappy_GetUncompressedLength` /
`port::Snappy_Uncompress`, the latter taking the declared uncompressed
length).  Only the resulting data slice is modelled: the
`cachable`/`heap_allocated` flags depend on pointer identity between the
source's return and the scratch buffer, which has no byte-level content. -/
def ReadBlock (read : Nat → Nat → Except Status (List Nat))
    (crcValue : List Nat → Nat) (crcUnmask : Nat → Nat)
    (snappyLength : List Nat → Option Nat)
    (snappyUncompress : List Nat → Nat → Option (List Nat))
    (options : ReadOptions) (handle : BlockHandle) : Except Status (List Nat) :=
  match read handle.offset (handle.size + kBlockTrailerSize) with
  | .error s => .error s
  | .ok contents =>
    if contents.length ≠ handle.size + kBlockTrailerSize then
      .error (.corruption "truncated block read")
    else if options.verify_checksums = true ∧
        crcValue (contents.take (handle.size + 1)) ≠
          crcUnmask (DecodeFixed32 (contents.drop (handle.size + 1))) then
      .error (.corruption "block checksum mismatch")
    else if contents.getD handle.size 0 = kNoCompression then
      .ok (contents.take handle.size)
    else if contents.getD handle.size 0 = kSnappyCompression then
      match snappyLength (contents.take handle.size) with
      | none => .error (.corruption "corrupted compressed block contents")
      | some ulength =>
        match snappyUncompress (contents.take handle.size) ulength with
        | none => .error (.corruption "corrupted compressed block contents")
        | some ubuf => .ok ubuf
    else .error (.corruption "bad block type")

/-! ## Block builder (table/block_builder.cc) and a record-level decoder -/

/-- Length of the longest common prefix of two byte strings (the `while`
loop of `BlockBuilder::Add`, lines 124-128). -/
def commonPrefixLen : List Nat → List Nat → Nat
  | a :: as, b :: bs => if a = b then commonPrefixLen as bs + 1 else 0
  | _, _ => 0

/-- The mutable state of a `BlockBuilder`; the restart interval
(`options_->block_restart_interval`) is passed to each operation. -/
structure BlockBuilder where
  buffer : List Nat
  restarts : List Nat
  counter : Nat
  finished : Bool
  last_key : List Nat
deriving DecidableEq, Repr

/-- A fresh builder (constructor / `Reset`): empty buffer, the single
restart point at offset 0, counter 0. -/
def BlockBuilder.start : BlockBuilder := ⟨[], [0], 0, false, []⟩

/-- `BlockBuilder::Add` (lines 113-151): below the restart interval the key
is delta-encoded against `last_key_`; at the interval a new restart point at
the current buffer offset is recorded and the full key stored.  The record
is `varint(shared) varint(unshared) varint(value_len) key_delta value`, and
`last_key_` becomes `last_key_[0:shared] ++ key_delta`. -/
def BlockBuilder.Add (R : Nat) (b : BlockBuilder) (key value : List Nat) : BlockBuilder :=
  let p := if b.counter < R then (commonPrefixLen b.last_key key, b.restarts)
           else (0, b.restarts ++ [b.buffer.length])
  let shared := p.1
  let non_shared := key.length - shared
  let record := putVarint shared ++ putVarint non_shared ++ putVarint value.length ++
      key.drop shared ++ value
  { buffer := b.buffer ++ record
    restarts := p.2
    counter := (if b.counter < R then b.counter else 0) + 1
    finished := b.finished
    last_key := b.last_key.take shared ++ key.drop shared }

/-- Feed a list of key/value pairs to the builder in order. -/
def BlockBuilder.AddAll (R : Nat) (b : BlockBuilder) : List (List Nat × List Nat) → BlockBuilder
  | [] => b
  | (k, v) :: kvs => BlockBuilder.AddAll R (b.Add R k v) kvs

/-- The bytes returned by `BlockBuilder::Finish` (lines 101-111): the record
buffer, each restart offset as fixed32, then the restart count as fixed32. -/
def BlockBuilder.Finish (b : BlockBuilder) : List Nat :=
  b.buffer ++ (b.restarts.map putFixed32).flatten ++ putFixed32 b.restarts.length

/-- The `num_restarts` field of a finished block: its trailing fixed32. -/
def numRestartsOf (block : List Nat) : Nat :=
  DecodeFixed32 (block.drop (block.length - 4))

/-- Decode one block record as the spec prescribes: three varints, the
`unshared`-byte key delta and the `value_len`-byte value; the key is the
first `shared` bytes of the previously reconstructed key followed by the
delta. -/
def decodeRecord (prev l : List Nat) : Option ((List Nat × List Nat) × List Nat) :=
  match getVarint l with
  | none => none
  | some (shared, l1) =>
    match getVarint l1 with
    | none => none
    | some (unshared, l2) =>
      match getVarint l2 with
      | none => none
      | some (vlen, l3) =>
        match readN unshared l3 with
        | none => none
        | some (delta, l4) =>
          match readN vlen l4 with
          | none => none
          | some (value, l5) => some ((prev.take shared ++ delta, value), l5)

/-- Decode `n` consecutive records, threading the reconstructed key. -/
def decodeRecords (prev : List Nat) : Nat → List Nat → Option (List (List Nat × List Nat) × List Nat)
  | 0, l => some ([], l)
  | n + 1, l =>
    match decodeRecord prev l with
    | none => none
    | some ((k, v), rest) =>
      match decodeRecords k n rest with
      | none => none
      | some (kvs, rest2) => some ((k, v) :: kvs, rest2)

/-- One step of the restart-array bookkeeping of `BlockBuilder::Add`, acting
on the pair (number of restart points, counter). -/
def restartStep (R : Nat) (p : Nat × Nat) : Nat × Nat :=
  if p.2 < R then (p.1, p.2 + 1) else (p.1 + 1, 1)

/-- `n` iterations of `restartStep`. -/
def restartIter (R : Nat) : Nat → Nat × Nat → Nat × Nat
  | 0, p => p
  | n + 1, p => restartIter R n (restartStep R p)

/-! ## The LRU cache shard (util/cache.cc)

The shard state is modelled with an explicit arena: `heap` maps the ids of
the still-allocated `LRUHandle`s to their contents, `lru` is the circular
list read from `lru_.next` (head = least recently used) to `lru_.prev`
(tail = most recently used), `table` is the hash index as a key-to-id map
(within one shard two entries with the same key also share their hash, so
the `hash` field adds nothing to the model), and `delLog` records every
`(*e->deleter)(e->key(), e->value)` invocation in order.  Values are opaque
`Nat`s standing for the `void*` payloads. -/

/-- One `LRUHandle`'s contents. -/
structure CEntry where
  key : List Nat
  value : Nat
  charge : Nat
  refs : Nat
deriving DecidableEq, Repr

/-- First-match association-list lookup. -/
def alGet {α β : Type} [DecidableEq α] : List (α × β) → α → Option β
  | [], _ => none
  | (j, e) :: t, i => if j = i then some e else alGet t i

/-- Replace the first binding of `i` (no-op when absent). -/
def alSet {α β : Type} [DecidableEq α] : List (α × β) → α → β → List (α × β)
  | [], _, _ => []
  | (j, e) :: t, i, e' => if j = i then (j, e') :: t else (j, e) :: alSet t i e'

/-- Remove the first binding of `i`. -/
def alRemove {α β : Type} [DecidableEq α] : List (α × β) → α → List (α × β)
  | [], _ => []
  | (j, e) :: t, i => if j = i then t else (j, e) :: alRemove t i

/-- One cache shard (`LRUCache`). -/
structure CacheState where
  heap : List (Nat × CEntry)
  lru : List Nat
  table : List (List Nat × Nat)
  usage : Nat
  capacity : Nat
  nextId : Nat
  delLog : List (Nat × List Nat × Nat)
deriving DecidableEq, Repr

/-- A fresh shard with the given capacity (constructor + `SetCapacity`). -/
def LRUCache.empty (capacity : Nat) : CacheState :=
  ⟨[], [], [], 0, capacity, 0, []⟩

/-- `LRUCache::Unref` (cache.cc lines 253-263): drop one reference; at zero
the charge leaves `usage_`, the deleter fires on the entry's key and value,
and the entry is freed. -/
def LRUCache.Unref (s : CacheState) (i : Nat) : CacheState :=
  match alGet s.heap i with
  | none => s
  | some e =>
    if e.refs ≤ 1 then
      { s with usage := s.usage - e.charge
               delLog := s.delLog ++ [(i, e.key, e.value)]
               heap := alRemove s.heap i }
    else { s with heap := alSet s.heap i { e with refs := e.refs - 1 } }

/-- `LRUCache::Lookup` (lines 281-296): on a hit, bump the refcount and move
the entry to the most-recently-used end; return the handle. -/
def LRUCache.Lookup (s : CacheState) (key : List Nat) : CacheState × Option Nat :=
  match alGet s.table key with
  | none => (s, none)
  | some i =>
    match alGet s.heap i with
    | none => (s, some i)
    | some e =>
      ({ s with heap := alSet s.heap i { e with refs := e.refs + 1 }
                lru := s.lru.erase i ++ [i] }, some i)

/-- `LRUCache::Release` (lines 298-302). -/
def LRUCache.Release (s : CacheState) (i : Nat) : CacheState := LRUCache.Unref s i

/-- One iteration body of the eviction loop of `LRUCache::Insert` (lines
330-336): unlink the LRU head from the list, remove its key from the index,
drop the cache's reference. -/
def LRUCache.evictStep (s : CacheState) (i : Nat) (rest : List Nat) : CacheState :=
  let s1 := { s with lru := rest }
  let s2 := match alGet s1.heap i with
            | some e => { s1 with table := alRemove s1.table e.key }
            | none => s1
  LRUCache.Unref s2 i

/-- The eviction loop: `while (usage_ > capacity_ && lru_.next != &lru_)`.
The list argument is the shard's current LRU list (head first). -/
def LRUCache.evictLoopGo : List Nat → CacheState → CacheState
  | [], s => s
  | i :: rest, s =>
    if s.usage > s.capacity then
      LRUCache.evictLoopGo rest (LRUCache.evictStep s i rest)
    else s

/-- The eviction loop entered with the shard's own LRU list. -/
def LRUCache.evictLoop (s : CacheState) : CacheState :=
  LRUCache.evictLoopGo s.lru s

/-- `LRUCache::Insert` (lines 304-339): allocate the entry with refcount 2,
append it most-recently-used, add its charge, replace any index entry of the
same key (unlinking and unref-ing the replaced node), then run the eviction
loop.  Returns the new state and the caller's handle (the new id). -/
def LRUCache.Insert (s : CacheState) (key : List Nat) (value charge : Nat) :
    CacheState × Nat :=
  let i := s.nextId
  let e : CEntry := ⟨key, value, charge, 2⟩
  let s1 := { s with heap := s.heap ++ [(i, e)]
                     nextId := i + 1
                     lru := s.lru ++ [i]
                     usage := s.usage + charge }
  let s2 := match alGet s1.table key with
    | some oldId =>
      LRUCache.Unref { s1 with table := alSet s1.table key i
                               lru := s1.lru.erase oldId } oldId
    | none => { s1 with table := s1.table ++ [(key, i)] }
  (LRUCache.evictLoop s2, i)

/-- `LRUCache::Erase` (lines 341-350): drop the index entry, unlink from the
LRU list, drop the cache's reference. -/
def LRUCache.Erase (s : CacheState) (key : List Nat) : CacheState :=
  match alGet s.table key with
  | none => s
  | some i =>
    LRUCache.Unref { s with table := alRemove s.table key
                            lru := s.lru.erase i } i

/-! ## Helper lemmas: varint round trip and prefix compression -/

theorem getVarint_putVarintAux (fuel : Nat) : ∀ (v : Nat), (v ≤ fuel ∨ v < 128) →
    ∀ (rest : List Nat), getVarint (putVarintAux fuel v ++ rest) = some (v, rest) := by
  induction fuel with
  | zero =>
    intro v h rest
    have hv : v < 128 := by omega
    simp [putVarintAux, getVarint, hv]
  | succ fuel ih =>
    intro v h rest
    by_cases hv : v < 128
    · simp [putVarintAux, getVarint, hv]
    · have h128 : 128 ≤ v := by omega
      have hlt : v / 128 < v := Nat.div_lt_self (by omega) (by omega)
      have hrec : v / 128 ≤ fuel ∨ v / 128 < 128 := by left; omega
      simp only [putVarintAux, if_neg hv, List.cons_append]
      rw [getVarint, if_neg (by omega), ih (v / 128) hrec rest]
      have h1 : (v % 128 + 128) % 128 = v % 128 := by omega
      have h2 : v % 128 + v / 128 * 128 = v := Nat.mod_add_div' v 128
      simp [h1, h2]

theorem getVarint_putVarint (v : Nat) (rest : List Nat) :
    getVarint (putVarint v ++ rest) = some (v, rest) :=
  getVarint_putVarintAux v v (Or.inl le_rfl) rest

theorem readN_append (l rest : List Nat) : readN l.length (l ++ rest) = some (l, rest) := by
  simp [readN]

theorem commonPrefixLen_le_left : ∀ (a b : List Nat), commonPrefixLen a b ≤ a.length := by
  intro a
  induction a with
  | nil => intro b; cases b <;> simp [commonPrefixLen]
  | cons x as ih =>
    intro b
    cases b with
    | nil => simp [commonPrefixLen]
    | cons y bs =>
      by_cases h : x = y
      · simpa [commonPrefixLen, h] using ih bs
      · simp [commonPrefixLen, h]

theorem commonPrefixLen_le_right : ∀ (a b : List Nat), commonPrefixLen a b ≤ b.length := by
  intro a
  induction a with
  | nil => intro b; cases b <;> simp [commonPrefixLen]
  | cons x as ih =>
    intro b
    cases b with
    | nil => simp [commonPrefixLen]
    | cons y bs =>
      by_cases h : x = y
      · simpa [commonPrefixLen, h] using ih bs
      · simp [commonPrefixLen, h]

theorem take_eq_of_le_commonPrefixLen :
    ∀ (a b : List Nat) (s : Nat), s ≤ commonPrefixLen a b → a.take s = b.take s := by
  intro a
  induction a with
  | nil =>
    intro b s hs
    cases b <;> simp_all [commonPrefixLen]
  | cons x as ih =>
    intro b s hs
    cases b with
    | nil => simp_all [commonPrefixLen]
    | cons y bs =>
      by_cases h : x = y
      · cases s with
        | zero => simp
        | succ t =>
          simp only [commonPrefixLen, if_pos h] at hs
          simp [h, ih bs t (by omega)]
      · simp only [commonPrefixLen, if_neg h] at hs
        have : s = 0 := by omega
        subst this
        simp

theorem take_append_drop_of_le_commonPrefixLen (a b : List Nat) (s : Nat)
    (hs : s ≤ commonPrefixLen a b) : a.take s ++ b.drop s = b := by
  rw [take_eq_of_le_commonPrefixLen a b s hs, List.take_append_drop]

theorem BlockBuilder.Add_last_key (R : Nat) (b : BlockBuilder) (key value : List Nat) :
    (b.Add R key value).last_key = key := by
  unfold BlockBuilder.Add
  by_cases h : b.counter < R
  · simp only [if_pos h]
    exact take_append_drop_of_le_commonPrefixLen _ _ _ le_rfl
  · simp [if_neg h]

theorem BlockBuilder.decodeRecord_Add (R : Nat) (b : BlockBuilder) (key value tail : List Nat) :
    decodeRecord b.last_key (((b.Add R key value).buffer.drop b.buffer.length) ++ tail) =
      some ((key, value), tail) := by
  unfold BlockBuilder.Add
  by_cases h : b.counter < R
  · simp only [if_pos h]
    rw [List.drop_left' rfl]
    simp only [List.append_assoc]
    have h1 : readN (key.length - commonPrefixLen b.last_key key)
        (key.drop (commonPrefixLen b.last_key key) ++ (value ++ tail)) =
        some (key.drop (commonPrefixLen b.last_key key), value ++ tail) := by
      rw [← List.length_drop]
      exact readN_append _ _
    have h2 : readN value.length (value ++ tail) = some (value, tail) := readN_append _ _
    simp only [decodeRecord, getVarint_putVarint, h1, h2]
    rw [take_append_drop_of_le_commonPrefixLen _ _ _ le_rfl]
  · simp only [if_neg h]
    rw [List.drop_left' rfl]
    simp only [List.append_assoc]
    have h1 : readN (key.length - 0) (key.drop 0 ++ (value ++ tail)) =
        some (key.drop 0, value ++ tail) := by
      rw [← List.length_drop]
      exact readN_append _ _
    have h2 : readN value.length (value ++ tail) = some (value, tail) := readN_append _ _
    simp only [decodeRecord, getVarint_putVarint, h1, h2]
    simp

theorem lor_of_lt_two_pow : ∀ (k s t : Nat), t < 2 ^ k → (s <<< k) ||| t = s * 2 ^ k + t := by
  intro k
  induction k with
  | zero =>
    intro s t ht
    have ht0 : t = 0 := by omega
    subst ht0
    simp
  | succ k ih =>
    intro s t ht
    have hbit_t : Nat.bit (t.testBit 0) (t >>> 1) = t := Nat.bit_testBit_zero_shiftRight_one t
    have hbit_s : Nat.bit false (s <<< k) = s <<< (k + 1) := by
      rw [Nat.bit_val, Nat.shiftLeft_succ]
      simp [Nat.mul_comm]
    have hp : 2 ^ (k + 1) = 2 * 2 ^ k := by ring
    have ht2 : t >>> 1 < 2 ^ k := by
      rw [Nat.shiftRight_one]
      omega
    rw [← hbit_t, ← hbit_s, Nat.lor_bit, ih s (t >>> 1) ht2]
    have h1 : 2 * (t >>> 1) + (t.testBit 0).toNat = t := by
      have := Nat.bit_testBit_zero_shiftRight_one t
      rwa [Nat.bit_val] at this
    rw [Nat.bit_val]
    simp only [Bool.false_or]
    have h2 : s * 2 ^ (k + 1) = 2 * (s * 2 ^ k) := by rw [hp]; ring
    omega

theorem PackSequenceAndType_eq (s t : Nat) (ht : t < 256) :
    PackSequenceAndType s t = s * 256 + t :=
  lor_of_lt_two_pow 8 s t (by omega)

theorem BlockBuilder.Add_buffer (R : Nat) (b : BlockBuilder) (key value : List Nat) :
    (b.Add R key value).buffer = b.buffer ++ ((b.Add R key value).buffer.drop b.buffer.length) := by
  unfold BlockBuilder.Add
  by_cases h : b.counter < R
  · simp only [if_pos h]
    rw [List.drop_left' rfl]
  · simp only [if_neg h]
    rw [List.drop_left' rfl]

theorem BlockBuilder.AddAll_decode (R : Nat) :
    ∀ (kvs : List (List Nat × List Nat)) (b : BlockBuilder),
    ∃ X, (BlockBuilder.AddAll R b kvs).buffer = b.buffer ++ X ∧
      ∀ tail, decodeRecords b.last_key kvs.length (X ++ tail) = some (kvs, tail) := by
  intro kvs
  induction kvs with
  | nil =>
    intro b
    exact ⟨[], by simp [BlockBuilder.AddAll], by intro tail; simp [decodeRecords]⟩
  | cons kv kvs ih =>
    intro b
    obtain ⟨k, v⟩ := kv
    obtain ⟨X', hbuf, hdec⟩ := ih (b.Add R k v)
    refine ⟨(b.Add R k v).buffer.drop b.buffer.length ++ X', ?_, ?_⟩
    · show (BlockBuilder.AddAll R (b.Add R k v) kvs).buffer = _
      rw [hbuf]
      conv_lhs => rw [BlockBuilder.Add_buffer R b k v]
      simp [List.append_assoc]
    · intro tail
      show decodeRecords b.last_key (kvs.length + 1) _ = _
      rw [decodeRecords, List.append_assoc, BlockBuilder.decodeRecord_Add]
      have hdec' := hdec tail
      rw [BlockBuilder.Add_last_key] at hdec'
      simp [hdec']

theorem putVarint_zero : putVarint 0 = [0] := rfl

theorem BlockBuilder.Add_restarts_zero (R : Nat) (b : BlockBuilder) (key value : List Nat)
    (hInv : ∀ r ∈ b.restarts, b.buffer[r]? = some 0 ∨ (r = b.buffer.length ∧ b.last_key = [])) :
    ∀ r ∈ (b.Add R key value).restarts, (b.Add R key value).buffer[r]? = some 0 := by
  intro r hr
  rw [BlockBuilder.Add_buffer R b key value]
  have hhead : ((b.Add R key value).buffer.drop b.buffer.length)[0]? = some 0 ∨
      (b.counter < R ∧ b.last_key ≠ []) := by
    unfold BlockBuilder.Add
    by_cases h : b.counter < R
    · by_cases hl : b.last_key = []
      · left
        simp only [if_pos h]
        rw [List.drop_left' rfl]
        rw [hl]
        have hc : commonPrefixLen [] key = 0 := by cases key <;> rfl
        rw [hc, putVarint_zero]
        simp
      · right; exact ⟨h, hl⟩
    · left
      simp only [if_neg h]
      rw [List.drop_left' rfl]
      simp [putVarint_zero]
  have hr' : r ∈ b.restarts ∨ (¬ b.counter < R ∧ r = b.buffer.length) := by
    revert hr
    unfold BlockBuilder.Add
    by_cases h : b.counter < R
    · simp only [if_pos h]
      intro hr
      exact Or.inl hr
    · simp only [if_neg h]
      intro hr
      rcases List.mem_append.mp hr with h1 | h2
      · exact Or.inl h1
      · exact Or.inr ⟨h, by simpa using h2⟩
  rcases hr' with hmem | ⟨hcnt, hlen⟩
  · rcases hInv r hmem with hbyte | ⟨hlen, hnil⟩
    · have hrlt : r < b.buffer.length := by
        by_contra hge
        rw [List.getElem?_eq_none (by omega)] at hbyte
        exact Option.noConfusion hbyte
      rw [List.getElem?_append_left hrlt]
      exact hbyte
    · subst hlen
      rw [List.getElem?_append_right le_rfl, Nat.sub_self]
      rcases hhead with h0 | ⟨_, hne⟩
      · exact h0
      · exact absurd hnil hne
  · subst hlen
    rw [List.getElem?_append_right le_rfl, Nat.sub_self]
    rcases hhead with h0 | ⟨hlt, _⟩
    · exact h0
    · exact absurd hlt hcnt

theorem BlockBuilder.AddAll_restarts_zero (R : Nat) :
    ∀ (kvs : List (List Nat × List Nat)) (b : BlockBuilder),
    (∀ r ∈ b.restarts, b.buffer[r]? = some 0 ∨ (r = b.buffer.length ∧ b.last_key = [])) →
    ∀ r ∈ (BlockBuilder.AddAll R b kvs).restarts,
      (BlockBuilder.AddAll R b kvs).buffer[r]? = some 0 ∨
        (r = (BlockBuilder.AddAll R b kvs).buffer.length ∧
          (BlockBuilder.AddAll R b kvs).last_key = []) := by
  intro kvs
  induction kvs with
  | nil => intro b hInv; exact hInv
  | cons kv kvs ih =>
    intro b hInv
    obtain ⟨k, v⟩ := kv
    exact ih (b.Add R k v) (fun r hr => Or.inl (BlockBuilder.Add_restarts_zero R b k v hInv r hr))

theorem BlockBuilder.start_restarts_inv :
    ∀ r ∈ BlockBuilder.start.restarts,
      BlockBuilder.start.buffer[r]? = some 0 ∨
        (r = BlockBuilder.start.buffer.length ∧ BlockBuilder.start.last_key = []) := by
  intro r hr
  simp only [BlockBuilder.start, List.mem_singleton] at hr
  subst hr
  exact Or.inr ⟨rfl, rfl⟩

theorem BlockBuilder.restarts_getVarint_zero (R : Nat) (kvs : List (List Nat × List Nat)) :
    ∀ r ∈ (BlockBuilder.AddAll R BlockBuilder.start kvs).restarts,
      r < (BlockBuilder.AddAll R BlockBuilder.start kvs).buffer.length →
      ∃ rest, getVarint ((BlockBuilder.AddAll R BlockBuilder.start kvs).buffer.drop r) =
        some (0, rest) := by
  intro r hr hlt
  rcases BlockBuilder.AddAll_restarts_zero R kvs BlockBuilder.start
      BlockBuilder.start_restarts_inv r hr with hbyte | ⟨hlen, _⟩
  · have hbyte' : (BlockBuilder.AddAll R BlockBuilder.start kvs).buffer[r] = 0 := by
      have := List.getElem?_eq_getElem hlt
      rw [this] at hbyte
      exact Option.some.inj hbyte
    rw [List.drop_eq_getElem_cons hlt, hbyte']
    exact ⟨(BlockBuilder.AddAll R BlockBuilder.start kvs).buffer.drop (r + 1),
      by simp [getVarint]⟩
  · omega

theorem BlockBuilder.Add_restartPair (R : Nat) (b : BlockBuilder) (key value : List Nat) :
    ((b.Add R key value).restarts.length, (b.Add R key value).counter) =
      restartStep R (b.restarts.length, b.counter) := by
  unfold BlockBuilder.Add restartStep
  by_cases h : b.counter < R
  · simp [h]
  · simp [h]

theorem BlockBuilder.AddAll_restartPair (R : Nat) :
    ∀ (kvs : List (List Nat × List Nat)) (b : BlockBuilder),
    ((BlockBuilder.AddAll R b kvs).restarts.length, (BlockBuilder.AddAll R b kvs).counter) =
      restartIter R kvs.length (b.restarts.length, b.counter) := by
  intro kvs
  induction kvs with
  | nil => intro b; rfl
  | cons kv kvs ih =>
    intro b
    obtain ⟨k, v⟩ := kv
    show ((BlockBuilder.AddAll R (b.Add R k v) kvs).restarts.length,
      (BlockBuilder.AddAll R (b.Add R k v) kvs).counter) = _
    rw [ih (b.Add R k v), BlockBuilder.Add_restartPair]
    rfl

theorem restartIter_succ (R : Nat) :
    ∀ (n : Nat) (p : Nat × Nat), restartIter R (n + 1) p = restartStep R (restartIter R n p) := by
  intro n
  induction n with
  | zero => intro p; rfl
  | succ m ih =>
    intro p
    show restartIter R (m + 1) (restartStep R p) = _
    rw [ih]
    rfl

theorem restartIter_closed (R : Nat) (hR : 1 ≤ R) :
    ∀ N, restartIter R N (1, 0) =
      (1 + (N - 1) / R, if N = 0 then 0 else (N - 1) % R + 1) := by
  intro N
  induction N with
  | zero => simp [restartIter]
  | succ N ih =>
    rw [restartIter_succ, ih]
    by_cases hN : N = 0
    · subst hN
      have h0 : (0 : Nat) < R := by omega
      simp [restartStep, h0]
    · simp only [if_neg hN, if_neg (Nat.succ_ne_zero N)]
      have hsub : N + 1 - 1 = N := by omega
      rw [hsub]
      have hdm : (N - 1) / R * R + (N - 1) % R = N - 1 := Nat.div_add_mod' (N - 1) R
      have hslt : (N - 1) % R < R := Nat.mod_lt _ (by omega)
      have hNeq : N = (N - 1) % R + 1 + (N - 1) / R * R := by omega
      by_cases hcase : (N - 1) % R + 1 < R
      · simp only [restartStep, if_pos hcase]
        have hdiv : N / R = (N - 1) / R := by
          conv_lhs => rw [hNeq]
          rw [Nat.add_mul_div_right _ _ (by omega : 0 < R),
            Nat.div_eq_of_lt hcase, Nat.zero_add]
        have hmod : N % R = (N - 1) % R + 1 := by
          conv_lhs => rw [hNeq]
          rw [Nat.add_mul_mod_self_right, Nat.mod_eq_of_lt hcase]
        rw [hdiv, hmod]
      · have hceq : (N - 1) % R + 1 = R := by omega
        simp only [restartStep, if_neg hcase]
        have hexp : R * ((N - 1) / R + 1) = (N - 1) / R * R + R := by ring
        have hNR : N = R * ((N - 1) / R + 1) := by
          rw [hexp]
          omega
        have hdiv : N / R = (N - 1) / R + 1 := by
          conv_lhs => rw [hNR]
          rw [Nat.mul_div_cancel_left _ (by omega : 0 < R)]
        have hmod : N % R = 0 := by
          conv_lhs => rw [hNR]
          rw [Nat.mul_mod_right]
        rw [hdiv, hmod]
        simp only [Prod.mk.injEq]
        exact ⟨by omega, trivial⟩

theorem numRestartsOf_append_putFixed32 (x : List Nat) (v : Nat) :
    numRestartsOf (x ++ putFixed32 v) = v % 2 ^ 32 := by
  unfold numRestartsOf
  have hlen : (x ++ putFixed32 v).length = x.length + 4 := by simp [putFixed32]
  rw [hlen]
  have h4 : x.length + 4 - 4 = x.length := by omega
  rw [h4, List.drop_left' rfl]
  have h32 : (2 : Nat) ^ 32 = 4294967296 := by norm_num
  rw [h32]
  unfold putFixed32 DecodeFixed32
  simp only [List.getD_cons_zero, List.getD_cons_succ]
  omega

/-- C4: feeding any strictly increasing key/value sequence to a fresh
`BlockBuilder` and decoding the `Finish` output record by record —
reconstructing each key as the first `shared` bytes of the previous key
plus the `unshared` delta — returns exactly the original sequence, and
every record sitting at a restart offset has a zero `shared` field. -/
theorem c4_block_roundtrip (R : Nat) (cmp : List Nat → List Nat → Int)
    (kvs : List (List Nat × List Nat)) (hR : 1 ≤ R)
    (hsort : List.Chain' (fun p q => 0 < cmp q.1 p.1) kvs) :
    (∃ tr, decodeRecords [] kvs.length (BlockBuilder.AddAll R BlockBuilder.start kvs).Finish =
      some (kvs, tr)) ∧
    (∀ r ∈ (BlockBuilder.AddAll R BlockBuilder.start kvs).restarts,
      r < (BlockBuilder.AddAll R BlockBuilder.start kvs).buffer.length →
      ∃ rest, getVarint ((BlockBuilder.AddAll R BlockBuilder.start kvs).buffer.drop r) =
        some (0, rest)) := by
  refine ⟨?_, BlockBuilder.restarts_getVarint_zero R kvs⟩
  obtain ⟨X, hbuf, hdec⟩ := BlockBuilder.AddAll_decode R kvs BlockBuilder.start
  refine ⟨((BlockBuilder.AddAll R BlockBuilder.start kvs).restarts.map putFixed32).flatten ++
    putFixed32 (BlockBuilder.AddAll R BlockBuilder.start kvs).restarts.length, ?_⟩
  unfold BlockBuilder.Finish
  rw [hbuf]
  have hnil : BlockBuilder.start.buffer = [] := rfl
  rw [hnil, List.nil_append, List.append_assoc]
  exact hdec _

/-- C4 witness: the spec's own example keys `"abc","abd","abe"` with values
`"x","y","z"` and restart interval 2 round-trip through the builder. -/
theorem c4_block_roundtrip_witness :
    (1 ≤ 2 ∧ List.Chain' (fun p q => 0 < BytewiseCompare q.1 p.1)
      [([97, 98, 99], [120]), ([97, 98, 100], [121]), ([97, 98, 101], [122])]) ∧
    (∃ tr, decodeRecords [] 3 (BlockBuilder.AddAll 2 BlockBuilder.start
        [([97, 98, 99], [120]), ([97, 98, 100], [121]), ([97, 98, 101], [122])]).Finish =
      some ([([97, 98, 99], [120]), ([97, 98, 100], [121]), ([97, 98, 101], [122])], tr)) :=
  ⟨⟨by decide, by simp [List.chain'_cons]; decide⟩,
    (c4_block_roundtrip 2 BytewiseCompare
      [([97, 98, 99], [120]), ([97, 98, 100], [121]), ([97, 98, 101], [122])]
      (by decide) (by simp [List.chain'_cons]; decide)).1⟩

/-- C5 counterexample: with restart interval 16 and `N = 0` records, the
finished block of a fresh builder contains one restart point (the initial
offset-0 entry), not `ceil(0/16) = 0` as the claim requires for every `N`. -/
theorem c5_counterexample :
    (BlockBuilder.AddAll 16 BlockBuilder.start []).restarts.length = 1 ∧
    numRestartsOf (BlockBuilder.AddAll 16 BlockBuilder.start []).Finish = 1 ∧
    ([] : List (List Nat × List Nat)).length = 0 ∧ (0 + 16 - 1) / 16 = 0 := by
  decide

/-- C5 amended: for every restart interval `R ≥ 1` and `N` records fed to a
fresh builder, the block has exactly `1 + (N - 1) / R` restart points —
which equals `ceil(N/R)` for every `N ≥ 1`, while an empty block keeps the
single initial restart point at offset 0 — the `num_restarts` trailer field
records that count, and each restart offset inside the record area points
at a record whose shared-prefix field is 0. -/
theorem c5_restart_density (R : Nat) (kvs : List (List Nat × List Nat)) (hR : 1 ≤ R) :
    (BlockBuilder.AddAll R BlockBuilder.start kvs).restarts.length =
      1 + (kvs.length - 1) / R ∧
    (1 ≤ kvs.length → (BlockBuilder.AddAll R BlockBuilder.start kvs).restarts.length =
      (kvs.length + R - 1) / R) ∧
    numRestartsOf (BlockBuilder.AddAll R BlockBuilder.start kvs).Finish =
      (BlockBuilder.AddAll R BlockBuilder.start kvs).restarts.length % 2 ^ 32 ∧
    (∀ r ∈ (BlockBuilder.AddAll R BlockBuilder.start kvs).restarts,
      r < (BlockBuilder.AddAll R BlockBuilder.start kvs).buffer.length →
      ∃ rest, getVarint ((BlockBuilder.AddAll R BlockBuilder.start kvs).buffer.drop r) =
        some (0, rest)) := by
  have hpair := BlockBuilder.AddAll_restartPair R kvs BlockBuilder.start
  have hstart : (BlockBuilder.start.restarts.length, BlockBuilder.start.counter) = (1, 0) := rfl
  rw [hstart, restartIter_closed R hR] at hpair
  have hfst : (BlockBuilder.AddAll R BlockBuilder.start kvs).restarts.length =
      1 + (kvs.length - 1) / R := congrArg Prod.fst hpair
  refine ⟨hfst, ?_, ?_, BlockBuilder.restarts_getVarint_zero R kvs⟩
  · intro hN
    rw [hfst]
    have hrw : kvs.length + R - 1 = kvs.length - 1 + R := by omega
    rw [hrw, Nat.add_div_right _ (by omega : 0 < R)]
    omega
  · unfold BlockBuilder.Finish
    exact numRestartsOf_append_putFixed32 _ _

/-- C5 witness: two single-byte records at restart interval 2 give one
restart point, matching `ceil(2/2) = 1`. -/
theorem c5_restart_density_witness :
    1 ≤ 2 ∧
    (BlockBuilder.AddAll 2 BlockBuilder.start
      [([97], [120]), ([98], [121])]).restarts.length =
      1 + (([([97], [120]), ([98], [121])] : List (List Nat × List Nat)).length - 1) / 2 :=
  ⟨by decide, (c5_restart_density 2 [([97], [120]), ([98], [121])] (by decide)).1⟩

/-- C1 counterexample: two well-formed internal keys sharing user key `"a"`
and sequence 5 but with different type bytes (Value vs Deletion).  `Compare`
orders them strictly (`-1 < 0`) by the packed trailer even though their
sequence numbers are equal, so "`Compare(a,b) < 0` iff
`sequence(a) > sequence(b)`" fails. -/
theorem c1_counterexample :
    BytewiseCompare (ExtractUserKey [97, 1, 5, 0, 0, 0, 0, 0, 0])
      (ExtractUserKey [97, 0, 5, 0, 0, 0, 0, 0, 0]) = 0 ∧
    InternalKeyComparator.Compare BytewiseCompare
      [97, 1, 5, 0, 0, 0, 0, 0, 0] [97, 0, 5, 0, 0, 0, 0, 0, 0] < 0 ∧
    sequenceOf [97, 1, 5, 0, 0, 0, 0, 0, 0] = sequenceOf [97, 0, 5, 0, 0, 0, 0, 0, 0] ∧
    ¬ sequenceOf [97, 1, 5, 0, 0, 0, 0, 0, 0] > sequenceOf [97, 0, 5, 0, 0, 0, 0, 0, 0] := by
  decide

/-- C1 amended: for internal keys with user-key portions equal under the
user comparator, `Compare(a,b) < 0` iff the packed 8-byte trailers satisfy
`tag(a) > tag(b)`; when additionally the type bytes agree this is exactly
`sequence(a) > sequence(b)`.  For unequal user-key portions `Compare`
returns the user comparator's result itself (hence its sign). -/
theorem c1_internal_key_ordering (ucmp : List Nat → List Nat → Int) (a b : List Nat)
    (ha : 8 ≤ a.length) (hb : 8 ≤ b.length) :
    (ucmp (ExtractUserKey a) (ExtractUserKey b) = 0 →
      ((InternalKeyComparator.Compare ucmp a b < 0 ↔ tagOf a > tagOf b) ∧
       (typeOf a = typeOf b →
        (InternalKeyComparator.Compare ucmp a b < 0 ↔ sequenceOf a > sequenceOf b)))) ∧
    (ucmp (ExtractUserKey a) (ExtractUserKey b) ≠ 0 →
      InternalKeyComparator.Compare ucmp a b = ucmp (ExtractUserKey a) (ExtractUserKey b)) := by
  constructor
  · intro h0
    have hc : InternalKeyComparator.Compare ucmp a b =
        (if tagOf a > tagOf b then -1 else if tagOf a < tagOf b then 1 else 0) := by
      unfold InternalKeyComparator.Compare tagOf
      rw [if_pos h0]
    constructor
    · rw [hc]
      split_ifs with h1 h2 <;> omega
    · intro hty
      unfold typeOf at hty
      unfold sequenceOf
      rw [hc]
      split_ifs with h1 h2 <;> omega
  · intro hne
    unfold InternalKeyComparator.Compare
    rw [if_neg hne]

/-- C1 witness: the amended ordering evaluated on the two concrete internal
keys of the counterexample. -/
theorem c1_internal_key_ordering_witness :
    8 ≤ ([97, 1, 5, 0, 0, 0, 0, 0, 0] : List Nat).length ∧
    8 ≤ ([97, 0, 5, 0, 0, 0, 0, 0, 0] : List Nat).length ∧
    (BytewiseCompare (ExtractUserKey [97, 1, 5, 0, 0, 0, 0, 0, 0])
        (ExtractUserKey [97, 0, 5, 0, 0, 0, 0, 0, 0]) = 0 →
      (InternalKeyComparator.Compare BytewiseCompare
          [97, 1, 5, 0, 0, 0, 0, 0, 0] [97, 0, 5, 0, 0, 0, 0, 0, 0] < 0 ↔
        tagOf [97, 1, 5, 0, 0, 0, 0, 0, 0] > tagOf [97, 0, 5, 0, 0, 0, 0, 0, 0])) :=
  ⟨by decide, by decide,
    fun h => ((c1_internal_key_ordering BytewiseCompare _ _ (by decide) (by decide)).1 h).1⟩

/-- C6 counterexample: `LookupKey("a", 5)` ends in the tag
`(5 << 8) | kTypeValue = 0x0501`, not the tag built from the numerically
smallest type `kTypeDeletion = 0`: the seek sentinel is the largest type
value, not the smallest. -/
theorem c6_counterexample :
    LookupKey [97] 5 = [9, 97, 1, 5, 0, 0, 0, 0, 0, 0] ∧
    kTypeDeletion < kValueTypeForSeek ∧
    LookupKey [97] 5 ≠
      putVarint (1 + 8) ++ [97] ++ putFixed64 ((5 <<< 8) ||| kTypeDeletion) := by
  decide

/-- C6 amended: `LookupKey(u, s)` is the varint32 of `len(u) + 8`, then `u`,
then the fixed 8-byte tag `(s << 8) | kValueTypeForSeek` — where the seek
sentinel is the numerically largest type value, so among the two valid types
its packed tag is maximal for that sequence (and therefore sorts first under
the decreasing-trailer internal ordering). -/
theorem c6_lookup_key (u : List Nat) (s : Nat) (hs : s ≤ kMaxSequenceNumber) :
    LookupKey u s = putVarint (u.length + 8) ++ u ++ putFixed64 (s * 256 + kValueTypeForSeek) ∧
    (∀ t, t = kTypeDeletion ∨ t = kTypeValue →
      t ≤ kValueTypeForSeek ∧
      PackSequenceAndType s t ≤ PackSequenceAndType s kValueTypeForSeek) := by
  constructor
  · unfold LookupKey
    rw [PackSequenceAndType_eq _ _ (by norm_num [kValueTypeForSeek, kTypeValue])]
  · intro t ht
    rcases ht with h | h
    · subst h
      refine ⟨by norm_num [kTypeDeletion, kValueTypeForSeek, kTypeValue], ?_⟩
      rw [PackSequenceAndType_eq _ _ (by norm_num [kTypeDeletion]),
        PackSequenceAndType_eq _ _ (by norm_num [kValueTypeForSeek, kTypeValue])]
      simp only [kTypeDeletion, kValueTypeForSeek, kTypeValue]
      omega
    · subst h
      exact ⟨le_rfl, le_rfl⟩

/-- C6 witness: the amended layout evaluated at user key `"a"`, sequence 5. -/
theorem c6_lookup_key_witness :
    5 ≤ kMaxSequenceNumber ∧
    LookupKey [97] 5 =
      putVarint (([97] : List Nat).length + 8) ++ [97] ++ putFixed64 (5 * 256 + kValueTypeForSeek) :=
  ⟨by decide, (c6_lookup_key [97] 5 (by decide)).1⟩

/-- C2 counterexample: a structurally valid filter trailer whose bucket 0
has `start == limit == 0` (an empty filter) with `limit` inside the filter
area.  The claim demands a definitive `false` without consulting the
policy, but the code takes the valid-range branch first and returns the
injected policy's answer on the empty slice — here `true`. -/
theorem c2_counterexample :
    (FilterBlockReader.construct (fun _ _ => true) [0, 0, 0, 0, 0, 0, 0, 0, 11]).num = 1 ∧
    DecodeFixed32 (([0, 0, 0, 0, 0, 0, 0, 0, 11] : List Nat).drop 0) =
      DecodeFixed32 (([0, 0, 0, 0, 0, 0, 0, 0, 11] : List Nat).drop 4) ∧
    FilterBlockReader.KeyMayMatch
      (FilterBlockReader.construct (fun _ _ => true) [0, 0, 0, 0, 0, 0, 0, 0, 11]) 0 [7] = true := by
  decide

/-- C2 amended: for a trailer accepted by the constructor, `KeyMayMatch`
computes bucket index `block_offset >> base_lg`; out of range is `true`;
with `[start, limit)` from the offset table, a well-formed range
(`start ≤ limit ≤ total filter length`) — including the empty range
`start = limit` — is delegated to the policy on the byte slice
`[start, limit)`; `start = limit` with `limit` out of range yields `false`;
every other malformed entry yields `true`. -/
theorem c2_key_may_match (policy : List Nat → List Nat → Bool) (contents : List Nat)
    (block_offset : Nat) (key : List Nat)
    (h5 : 5 ≤ contents.length)
    (hlw : DecodeFixed32 (contents.drop (contents.length - 5)) ≤ contents.length - 5) :
    FilterBlockReader.KeyMayMatch (FilterBlockReader.construct policy contents) block_offset key =
      (if block_offset >>> (contents.getD (contents.length - 1) 0) <
          (contents.length - 5 - DecodeFixed32 (contents.drop (contents.length - 5))) / 4 then
        (if DecodeFixed32 (contents.drop
              (DecodeFixed32 (contents.drop (contents.length - 5)) +
                (block_offset >>> (contents.getD (contents.length - 1) 0)) * 4)) ≤
            DecodeFixed32 (contents.drop
              (DecodeFixed32 (contents.drop (contents.length - 5)) +
                (block_offset >>> (contents.getD (contents.length - 1) 0)) * 4 + 4)) ∧
            DecodeFixed32 (contents.drop
              (DecodeFixed32 (contents.drop (contents.length - 5)) +
                (block_offset >>> (contents.getD (contents.length - 1) 0)) * 4 + 4)) ≤
              DecodeFixed32 (contents.drop (contents.length - 5)) then
          policy key ((contents.drop
              (DecodeFixed32 (contents.drop
                (DecodeFixed32 (contents.drop (contents.length - 5)) +
                  (block_offset >>> (contents.getD (contents.length - 1) 0)) * 4)))).take
            (DecodeFixed32 (contents.drop
                (DecodeFixed32 (contents.drop (contents.length - 5)) +
                  (block_offset >>> (contents.getD (contents.length - 1) 0)) * 4 + 4)) -
              DecodeFixed32 (contents.drop
                (DecodeFixed32 (contents.drop (contents.length - 5)) +
                  (block_offset >>> (contents.getD (contents.length - 1) 0)) * 4))))
        else if DecodeFixed32 (contents.drop
              (DecodeFixed32 (contents.drop (contents.length - 5)) +
                (block_offset >>> (contents.getD (contents.length - 1) 0)) * 4)) =
            DecodeFixed32 (contents.drop
              (DecodeFixed32 (contents.drop (contents.length - 5)) +
                (block_offset >>> (contents.getD (contents.length - 1) 0)) * 4 + 4)) then
          false
        else true)
      else true) := by
  unfold FilterBlockReader.KeyMayMatch FilterBlockReader.construct
  rw [if_neg (show ¬ contents.length < 5 by omega)]
  rw [if_neg (show ¬ DecodeFixed32 (contents.drop (contents.length - 5)) >
    contents.length - 5 by omega)]

/-- C2 witness: the amended case analysis applied to the counterexample's
concrete trailer and an all-true policy. -/
theorem c2_key_may_match_witness :
    (5 ≤ ([0, 0, 0, 0, 0, 0, 0, 0, 11] : List Nat).length ∧
      DecodeFixed32 (([0, 0, 0, 0, 0, 0, 0, 0, 11] : List Nat).drop (9 - 5)) ≤ 9 - 5) ∧
    FilterBlockReader.KeyMayMatch
      (FilterBlockReader.construct (fun _ _ => true) [0, 0, 0, 0, 0, 0, 0, 0, 11]) 0 [7] = true :=
  ⟨⟨by decide, by decide⟩, by
    rw [c2_key_may_match (fun _ _ => true) [0, 0, 0, 0, 0, 0, 0, 0, 11] 0 [7]
      (by decide) (by decide)]
    decide⟩

theorem Footer.DecodeFrom_of_len (input : List Nat) (hlen : kEncodedLength ≤ input.length) :
    Footer.DecodeFrom input = some (
      if footerMagicOf ((input.drop (kEncodedLength - 8)).take 8) ≠ kTableMagicNumber then
        .error (.corruption "not an sstable (bad magic number)")
      else
        match BlockHandle.DecodeFrom input with
        | .error e => .error e
        | .ok (mh, r1) =>
          match BlockHandle.DecodeFrom r1 with
          | .error e => .error e
          | .ok (ih, _) => .ok (⟨mh, ih⟩, input.drop kEncodedLength)) := by
  have he : kEncodedLength - 8 + 8 = kEncodedLength := by
    norm_num [kEncodedLength, kMaxEncodedLength]
  unfold Footer.DecodeFrom readBytesAt
  rw [he, if_pos hlen]

/-- C10: the total embedding of `Footer::DecodeFrom` performs its sole
unchecked buffer access — the 8-byte magic read at offset
`kEncodedLength - 8` — within bounds exactly when the input holds the whole
48-byte footer region, so the out-of-bounds branch (`none`) is unreachable
precisely under the precondition `input.length ≥ 48`. -/
theorem c10_footer_decode_bounds (input : List Nat) :
    (Footer.DecodeFrom input).isSome ↔ kEncodedLength ≤ input.length := by
  constructor
  · intro hsome
    by_contra hlt
    have he : kEncodedLength - 8 + 8 = kEncodedLength := by
      norm_num [kEncodedLength, kMaxEncodedLength]
    unfold Footer.DecodeFrom readBytesAt at hsome
    rw [he, if_neg hlt] at hsome
    simpa using hsome
  · intro hlen
    rw [Footer.DecodeFrom_of_len input hlen]
    rfl

/-- C7: for any buffer covering the 48-byte footer region, `DecodeFrom`
inspects the trailing 8 magic bytes first: a mismatch yields the magic
corruption error no matter what the first 40 bytes contain (so neither
handle is parsed); a match decodes the metaindex handle then the index
handle, propagating the first failure, and on success returns both handles
with the input advanced past the magic. -/
theorem c7_footer_decode (input : List Nat) (hlen : kEncodedLength ≤ input.length) :
    (footerMagicOf ((input.drop (kEncodedLength - 8)).take 8) ≠ kTableMagicNumber →
      Footer.DecodeFrom input =
        some (.error (.corruption "not an sstable (bad magic number)")) ∧
      ∀ pre : List Nat, pre.length = kEncodedLength - 8 →
        Footer.DecodeFrom (pre ++ input.drop (kEncodedLength - 8)) =
          some (.error (.corruption "not an sstable (bad magic number)"))) ∧
    (footerMagicOf ((input.drop (kEncodedLength - 8)).take 8) = kTableMagicNumber →
      (∀ e, BlockHandle.DecodeFrom input = .error e →
        Footer.DecodeFrom input = some (.error e)) ∧
      (∀ h1 r1 e, BlockHandle.DecodeFrom input = .ok (h1, r1) →
        BlockHandle.DecodeFrom r1 = .error e →
        Footer.DecodeFrom input = some (.error e)) ∧
      (∀ h1 r1 h2 r2, BlockHandle.DecodeFrom input = .ok (h1, r1) →
        BlockHandle.DecodeFrom r1 = .ok (h2, r2) →
        Footer.DecodeFrom input = some (.ok (⟨h1, h2⟩, input.drop kEncodedLength)))) := by
  constructor
  · intro hmagic
    constructor
    · rw [Footer.DecodeFrom_of_len input hlen, if_pos hmagic]
    · intro pre hpre
      have hlen' : kEncodedLength ≤ (pre ++ input.drop (kEncodedLength - 8)).length := by
        have hk : kEncodedLength = 48 := by norm_num [kEncodedLength, kMaxEncodedLength]
        have h8 : 8 ≤ (input.drop (kEncodedLength - 8)).length := by
          rw [List.length_drop]
          omega
        simp only [List.length_append, hpre]
        omega
      have hdrop : (pre ++ input.drop (kEncodedLength - 8)).drop (kEncodedLength - 8) =
          input.drop (kEncodedLength - 8) := List.drop_left' hpre
      rw [Footer.DecodeFrom_of_len _ hlen', hdrop, if_pos hmagic]
  · intro hmagic
    have hcond : ¬ footerMagicOf ((input.drop (kEncodedLength - 8)).take 8) ≠ kTableMagicNumber :=
      fun h => h hmagic
    refine ⟨?_, ?_, ?_⟩
    · intro e he
      rw [Footer.DecodeFrom_of_len input hlen, if_neg hcond, he]
    · intro h1 r1 e hok he
      rw [Footer.DecodeFrom_of_len input hlen, if_neg hcond, hok]
      simp [he]
    · intro h1 r1 h2 r2 hok1 hok2
      rw [Footer.DecodeFrom_of_len input hlen, if_neg hcond, hok1]
      simp [hok2]

/-- C7 witness: the spec's example footer `metaindex=(100,50)`,
`index=(150,80)` encodes to 48 bytes; corrupting byte 47 (the last magic
byte) makes `DecodeFrom` return the magic corruption error. -/
theorem c7_footer_decode_witness :
    (kEncodedLength ≤ ((Footer.EncodeTo ⟨⟨100, 50⟩, ⟨150, 80⟩⟩).take 47 ++ [0]).length ∧
      (Footer.EncodeTo ⟨⟨100, 50⟩, ⟨150, 80⟩⟩).length = 48 ∧
      footerMagicOf (((((Footer.EncodeTo ⟨⟨100, 50⟩, ⟨150, 80⟩⟩).take 47 ++ [0])).drop
          (kEncodedLength - 8)).take 8) ≠ kTableMagicNumber) ∧
    Footer.DecodeFrom ((Footer.EncodeTo ⟨⟨100, 50⟩, ⟨150, 80⟩⟩).take 47 ++ [0]) =
      some (.error (.corruption "not an sstable (bad magic number)")) :=
  ⟨⟨by decide, by decide, by decide⟩,
    ((c7_footer_decode ((Footer.EncodeTo ⟨⟨100, 50⟩, ⟨150, 80⟩⟩).take 47 ++ [0])
      (by decide)).1 (by decide)).1⟩

theorem ReadBlock_unfold_ok (read : Nat → Nat → Except Status (List Nat))
    (crcValue : List Nat → Nat) (crcUnmask : Nat → Nat)
    (snappyLength : List Nat → Option Nat)
    (snappyUncompress : List Nat → Nat → Option (List Nat))
    (options : ReadOptions) (handle : BlockHandle) (contents : List Nat)
    (hread : read handle.offset (handle.size + kBlockTrailerSize) = .ok contents) :
    ReadBlock read crcValue crcUnmask snappyLength snappyUncompress options handle =
      (if contents.length ≠ handle.size + kBlockTrailerSize then
        .error (.corruption "truncated block read")
      else if options.verify_checksums = true ∧
          crcValue (contents.take (handle.size + 1)) ≠
            crcUnmask (DecodeFixed32 (contents.drop (handle.size + 1))) then
        .error (.corruption "block checksum mismatch")
      else if contents.getD handle.size 0 = kNoCompression then
        .ok (contents.take handle.size)
      else if contents.getD handle.size 0 = kSnappyCompression then
        match snappyLength (contents.take handle.size) with
        | none => .error (.corruption "corrupted compressed block contents")
        | some ulength =>
          match snappyUncompress (contents.take handle.size) ulength with
          | none => .error (.corruption "corrupted compressed block contents")
          | some ubuf => .ok ubuf
      else .error (.corruption "bad block type")) := by
  unfold ReadBlock
  rw [hread]

/-- C8: when the byte source answers the `handle.size + 5`-byte request with
`contents` (never more than requested), `ReadBlock` returns a corruption
error exactly for: a short read; enabled checksum verification with a
mismatch over the data-plus-type-byte span; an unrecognized type byte; or a
recognized compressed block that fails to decompress.  In the successful
no-compression case it returns the raw `handle.size`-byte slice unchanged. -/
theorem c8_read_block (read : Nat → Nat → Except Status (List Nat))
    (crcValue : List Nat → Nat) (crcUnmask : Nat → Nat)
    (snappyLength : List Nat → Option Nat)
    (snappyUncompress : List Nat → Nat → Option (List Nat))
    (options : ReadOptions) (handle : BlockHandle) (contents : List Nat)
    (hread : read handle.offset (handle.size + kBlockTrailerSize) = .ok contents)
    (hatmost : contents.length ≤ handle.size + kBlockTrailerSize) :
    ((∃ m, ReadBlock read crcValue crcUnmask snappyLength snappyUncompress options handle =
        .error (.corruption m)) ↔
      (contents.length < handle.size + kBlockTrailerSize ∨
       (options.verify_checksums = true ∧
         crcValue (contents.take (handle.size + 1)) ≠
           crcUnmask (DecodeFixed32 (contents.drop (handle.size + 1)))) ∨
       (contents.getD handle.size 0 ≠ kNoCompression ∧
         contents.getD handle.size 0 ≠ kSnappyCompression) ∨
       (contents.getD handle.size 0 = kSnappyCompression ∧
         (snappyLength (contents.take handle.size) = none ∨
          ∃ ul, snappyLength (contents.take handle.size) = some ul ∧
            snappyUncompress (contents.take handle.size) ul = none)))) ∧
    (¬ (options.verify_checksums = true ∧
        crcValue (contents.take (handle.size + 1)) ≠
          crcUnmask (DecodeFixed32 (contents.drop (handle.size + 1)))) →
      contents.length = handle.size + kBlockTrailerSize →
      contents.getD handle.size 0 = kNoCompression →
      ReadBlock read crcValue crcUnmask snappyLength snappyUncompress options handle =
        .ok (contents.take handle.size)) := by
  by_cases hlen : contents.length = handle.size + kBlockTrailerSize
  · have hnotlt : ¬ contents.length < handle.size + kBlockTrailerSize := by omega
    by_cases hv : options.verify_checksums = true ∧
        crcValue (contents.take (handle.size + 1)) ≠
          crcUnmask (DecodeFixed32 (contents.drop (handle.size + 1)))
    · have hval : ReadBlock read crcValue crcUnmask snappyLength snappyUncompress
          options handle = .error (.corruption "block checksum mismatch") := by
        rw [ReadBlock_unfold_ok read crcValue crcUnmask snappyLength snappyUncompress
          options handle contents hread]
        rw [if_neg (by omega), if_pos hv]
      refine ⟨?_, fun hnv _ _ => absurd hv hnv⟩
      rw [hval]
      constructor
      · intro _
        exact Or.inr (Or.inl hv)
      · intro _
        exact ⟨_, rfl⟩
    · by_cases ht0 : contents.getD handle.size 0 = kNoCompression
      · have hval : ReadBlock read crcValue crcUnmask snappyLength snappyUncompress
            options handle = .ok (contents.take handle.size) := by
          rw [ReadBlock_unfold_ok read crcValue crcUnmask snappyLength snappyUncompress
            options handle contents hread]
          rw [if_neg (by omega), if_neg hv, if_pos ht0]
        refine ⟨?_, fun _ _ _ => hval⟩
        rw [hval]
        constructor
        · rintro ⟨m, hm⟩
          exact Except.noConfusion hm
        · rintro (h | h | h | h)
          · omega
          · exact absurd h hv
          · exact absurd ht0 h.1
          · rw [h.1] at ht0
            simp [kNoCompression, kSnappyCompression] at ht0
      · by_cases ht1 : contents.getD handle.size 0 = kSnappyCompression
        · cases hsl : snappyLength (contents.take handle.size) with
          | none =>
            have hval : ReadBlock read crcValue crcUnmask snappyLength snappyUncompress
                options handle = .error (.corruption "corrupted compressed block contents") := by
              rw [ReadBlock_unfold_ok read crcValue crcUnmask snappyLength snappyUncompress
                options handle contents hread]
              rw [if_neg (by omega), if_neg hv, if_neg ht0, if_pos ht1, hsl]
            refine ⟨?_, fun _ _ h => absurd h ht0⟩
            rw [hval]
            constructor
            · intro _
              exact Or.inr (Or.inr (Or.inr ⟨ht1, Or.inl rfl⟩))
            · intro _
              exact ⟨_, rfl⟩
          | some ul =>
            cases hsu : snappyUncompress (contents.take handle.size) ul with
            | none =>
              have hval : ReadBlock read crcValue crcUnmask snappyLength snappyUncompress
                  options handle =
                  .error (.corruption "corrupted compressed block contents") := by
                rw [ReadBlock_unfold_ok read crcValue crcUnmask snappyLength snappyUncompress
                  options handle contents hread]
                rw [if_neg (by omega), if_neg hv, if_neg ht0, if_pos ht1, hsl]
                simp [hsu]
              refine ⟨?_, fun _ _ h => absurd h ht0⟩
              rw [hval]
              constructor
              · intro _
                exact Or.inr (Or.inr (Or.inr ⟨ht1, Or.inr ⟨ul, rfl, hsu⟩⟩))
              · intro _
                exact ⟨_, rfl⟩
            | some ubuf =>
              have hval : ReadBlock read crcValue crcUnmask snappyLength snappyUncompress
                  options handle = .ok ubuf := by
                rw [ReadBlock_unfold_ok read crcValue crcUnmask snappyLength snappyUncompress
                  options handle contents hread]
                rw [if_neg (by omega), if_neg hv, if_neg ht0, if_pos ht1, hsl]
                simp [hsu]
              refine ⟨?_, fun _ _ h => absurd h ht0⟩
              rw [hval]
              constructor
              · rintro ⟨m, hm⟩
                exact Except.noConfusion hm
              · rintro (h | h | h | h)
                · omega
                · exact absurd h hv
                · exact absurd ht1 h.2
                · rcases h.2 with h2 | ⟨ul', hul', hsu'⟩
                  · exact Option.noConfusion h2
                  · cases Option.some.inj hul'
                    rw [hsu] at hsu'
                    exact Option.noConfusion hsu'
        · have hval : ReadBlock read crcValue crcUnmask snappyLength snappyUncompress
              options handle = .error (.corruption "bad block type") := by
            rw [ReadBlock_unfold_ok read crcValue crcUnmask snappyLength snappyUncompress
              options handle contents hread]
            rw [if_neg (by omega), if_neg hv, if_neg ht0, if_neg ht1]
          refine ⟨?_, fun _ _ h => absurd h ht0⟩
          rw [hval]
          constructor
          · intro _
            exact Or.inr (Or.inr (Or.inl ⟨ht0, ht1⟩))
          · intro _
            exact ⟨_, rfl⟩
  · have hval : ReadBlock read crcValue crcUnmask snappyLength snappyUncompress
        options handle = .error (.corruption "truncated block read") := by
      rw [ReadBlock_unfold_ok read crcValue crcUnmask snappyLength snappyUncompress
        options handle contents hread]
      rw [if_pos hlen]
    refine ⟨?_, fun _ h _ => absurd h hlen⟩
    rw [hval]
    constructor
    · intro _
      left
      omega
    · intro _
      exact ⟨_, rfl⟩

/-- C8 witness: a one-byte uncompressed block `[7]` with type byte 0 and
checksum verification off reads back unchanged. -/
theorem c8_read_block_witness :
    ((fun _ _ => (Except.ok [7, 0, 1, 2, 3, 4] : Except Status (List Nat))) (0 : Nat)
        ((1 : Nat) + kBlockTrailerSize) = Except.ok [7, 0, 1, 2, 3, 4] ∧
      ([7, 0, 1, 2, 3, 4] : List Nat).length ≤ 1 + kBlockTrailerSize) ∧
    ReadBlock (fun _ _ => (Except.ok [7, 0, 1, 2, 3, 4] : Except Status (List Nat)))
      (fun _ => 0) (fun c => c)
      (fun _ => none) (fun _ _ => none) ⟨false⟩ ⟨0, 1⟩ = .ok [7] :=
  ⟨⟨rfl, by decide⟩, by
    have h := c8_read_block
      (fun _ _ => (Except.ok [7, 0, 1, 2, 3, 4] : Except Status (List Nat))) (fun _ => 0)
      (fun c => c) (fun _ => none) (fun _ _ => none) ⟨false⟩ ⟨0, 1⟩ [7, 0, 1, 2, 3, 4]
      rfl (by decide)
    exact h.2 (by simp) (by decide) (by decide)⟩

/-! ## Helper lemmas for the cache model -/

theorem alGet_set_ne {β : Type} (l : List (Nat × β)) (j i : Nat) (x : β) (h : j ≠ i) :
    alGet (alSet l j x) i = alGet l i := by
  induction l with
  | nil => rfl
  | cons p t ih =>
    obtain ⟨a, b⟩ := p
    unfold alSet
    by_cases ha : a = j
    · rw [if_pos ha]
      unfold alGet
      rw [if_neg (by omega), if_neg (by omega)]
    · rw [if_neg ha]
      unfold alGet
      by_cases hai : a = i
      · rw [if_pos hai, if_pos hai]
      · rw [if_neg hai, if_neg hai]
        exact ih

theorem alGet_set_self {β : Type} (l : List (Nat × β)) (i : Nat) (x y : β)
    (h : alGet l i = some y) : alGet (alSet l i x) i = some x := by
  induction l with
  | nil => exact absurd h (by simp [alGet])
  | cons p t ih =>
    obtain ⟨a, b⟩ := p
    unfold alSet
    by_cases ha : a = i
    · rw [if_pos ha]
      unfold alGet
      rw [if_pos ha]
    · rw [if_neg ha]
      unfold alGet
      rw [if_neg ha]
      unfold alGet at h
      rw [if_neg ha] at h
      exact ih h

theorem alGet_remove_ne {β : Type} (l : List (Nat × β)) (j i : Nat) (h : j ≠ i) :
    alGet (alRemove l j) i = alGet l i := by
  induction l with
  | nil => rfl
  | cons p t ih =>
    obtain ⟨a, b⟩ := p
    show alGet (if a = j then t else (a, b) :: alRemove t j) i =
      if a = i then some b else alGet t i
    by_cases ha : a = j
    · rw [if_pos ha, if_neg (show ¬ a = i by omega)]
    · rw [if_neg ha]
      show (if a = i then some b else alGet (alRemove t j) i) = _
      by_cases hai : a = i
      · rw [if_pos hai, if_pos hai]
      · rw [if_neg hai, if_neg hai]
        exact ih

theorem alSet_map_fst {β : Type} (l : List (Nat × β)) (i : Nat) (x : β) :
    (alSet l i x).map Prod.fst = l.map Prod.fst := by
  induction l with
  | nil => rfl
  | cons p t ih =>
    obtain ⟨a, b⟩ := p
    unfold alSet
    by_cases ha : a = i
    · rw [if_pos ha]
      simp
    · rw [if_neg ha]
      simp [ih]

theorem alGet_remove_self {β : Type} (l : List (Nat × β)) (i : Nat)
    (h : (l.map Prod.fst).Nodup) : alGet (alRemove l i) i = none := by
  induction l with
  | nil => rfl
  | cons p t ih =>
    obtain ⟨a, b⟩ := p
    simp only [List.map_cons, List.nodup_cons] at h
    unfold alRemove
    by_cases ha : a = i
    · rw [if_pos ha]
      subst ha
      -- a not among the keys of t, so lookup misses
      clear ih
      induction t with
      | nil => rfl
      | cons q u ihq =>
        obtain ⟨c, d⟩ := q
        simp only [List.map_cons, List.mem_cons, List.nodup_cons] at h
        unfold alGet
        rw [if_neg (by tauto)]
        exact ihq ⟨fun hm => h.1 (Or.inr hm), h.2.2⟩
    · rw [if_neg ha]
      unfold alGet
      rw [if_neg ha]
      exact ih h.2

theorem alGet_append_of_some {β : Type} (l l' : List (Nat × β)) (i : Nat) (y : β)
    (h : alGet l i = some y) : alGet (l ++ l') i = some y := by
  induction l with
  | nil => exact absurd h (by simp [alGet])
  | cons p t ih =>
    obtain ⟨a, b⟩ := p
    change (if a = i then some b else alGet t i) = some y at h
    show (if a = i then some b else alGet (t ++ l') i) = some y
    by_cases ha : a = i
    · rw [if_pos ha] at h ⊢
      exact h
    · rw [if_neg ha] at h ⊢
      exact ih h

theorem LRUCache.evictStep_lru (s : CacheState) (j : Nat) (rest : List Nat) :
    (LRUCache.evictStep s j rest).lru = rest := by
  unfold LRUCache.evictStep LRUCache.Unref
  cases h : alGet s.heap j with
  | none => simp [h]
  | some e => by_cases hr : e.refs ≤ 1 <;> simp [h, hr]

theorem LRUCache.evictStep_preserve (s : CacheState) (j : Nat) (rest : List Nat) (i : Nat)
    (hij : j ≠ i) :
    alGet (LRUCache.evictStep s j rest).heap i = alGet s.heap i ∧
    (LRUCache.evictStep s j rest).delLog.filter (fun x => x.1 = i) =
      s.delLog.filter (fun x => x.1 = i) := by
  unfold LRUCache.evictStep LRUCache.Unref
  cases hj : alGet s.heap j with
  | none => simp [hj]
  | some ej =>
    simp only [hj]
    by_cases hr : ej.refs ≤ 1
    · rw [if_pos hr]
      refine ⟨alGet_remove_ne s.heap j i hij, ?_⟩
      simp only [List.filter_append]
      have : (List.filter (fun x => decide (x.1 = i)) [(j, ej.key, ej.value)]) = [] := by
        simp [hij]
      rw [this, List.append_nil]
    · rw [if_neg hr]
      exact ⟨alGet_set_ne s.heap j i _ hij, rfl⟩

theorem LRUCache.evictLoopGo_preserve :
    ∀ (l : List Nat) (s : CacheState) (i : Nat), i ∉ l →
    alGet (LRUCache.evictLoopGo l s).heap i = alGet s.heap i ∧
    (LRUCache.evictLoopGo l s).delLog.filter (fun x => x.1 = i) =
      s.delLog.filter (fun x => x.1 = i) := by
  intro l
  induction l with
  | nil => intro s i _; exact ⟨rfl, rfl⟩
  | cons j rest ih =>
    intro s i hi
    have hij : j ≠ i := fun h => hi (h ▸ List.mem_cons_self j rest)
    have hirest : i ∉ rest := fun h => hi (List.mem_cons_of_mem _ h)
    unfold LRUCache.evictLoopGo
    by_cases hc : s.usage > s.capacity
    · rw [if_pos hc]
      obtain ⟨h1, h2⟩ := ih (LRUCache.evictStep s j rest) i hirest
      obtain ⟨h3, h4⟩ := LRUCache.evictStep_preserve s j rest i hij
      exact ⟨h1.trans h3, h2.trans h4⟩
    · rw [if_neg hc]
      exact ⟨rfl, rfl⟩

theorem LRUCache.evictLoopGo_lru :
    ∀ (l : List Nat) (s : CacheState), s.lru = l →
    ∃ k, (LRUCache.evictLoopGo l s).lru = l.drop k := by
  intro l
  induction l with
  | nil =>
    intro s h
    exact ⟨0, h⟩
  | cons j rest ih =>
    intro s h
    unfold LRUCache.evictLoopGo
    by_cases hc : s.usage > s.capacity
    · rw [if_pos hc]
      obtain ⟨k, hk⟩ := ih (LRUCache.evictStep s j rest) (LRUCache.evictStep_lru s j rest)
      exact ⟨k + 1, hk⟩
    · rw [if_neg hc]
      exact ⟨0, h⟩

/-- C3 counterexample: capacity-1 shard; insert `"A"` (charge 1, caller
keeps the returned handle, refs = 2), then insert `"B"` (charge 1).  The
eviction loop removes entry 0 — on which the caller still holds a handle —
from both the LRU list and the index (and then entry 1 as well), falsifying
"only unreferenced entries are evicted / a referenced entry is never removed
from the index and list".  The entries survive in the heap with the
caller's reference and the deleter has not run. -/
theorem c3_counterexample :
    (LRUCache.Insert (LRUCache.Insert (LRUCache.empty 1) [65] 10 1).1 [66] 20 1).1.lru = [] ∧
    alGet (LRUCache.Insert (LRUCache.Insert (LRUCache.empty 1) [65] 10 1).1
      [66] 20 1).1.table [65] = none ∧
    alGet (LRUCache.Insert (LRUCache.Insert (LRUCache.empty 1) [65] 10 1).1
      [66] 20 1).1.heap 0 = some ⟨[65], 10, 1, 1⟩ ∧
    (LRUCache.Insert (LRUCache.Insert (LRUCache.empty 1) [65] 10 1).1 [66] 20 1).1.delLog =
      [] ∧
    (LRUCache.Insert (LRUCache.empty 1) [65] 10 1).2 = 0 := by
  decide

/-- C3 amended: the eviction loop evicts strictly from the least-recently-
used end — the remaining list is always a suffix of the old one — but it
does so regardless of outstanding caller handles: a still-referenced entry
at the LRU head is unlinked from the list and index, yet only loses the
cache's reference; it stays allocated and its deleter does not run until
the caller's release. -/
theorem c3_lru_eviction (s : CacheState) (i : Nat) (rest : List Nat) (e : CEntry)
    (hlru : s.lru = i :: rest) (hnotin : i ∉ rest)
    (hheap : alGet s.heap i = some e) (hrefs : 2 ≤ e.refs)
    (hover : s.capacity < s.usage) :
    (∃ k, (LRUCache.evictLoop s).lru = rest.drop k) ∧
    alGet (LRUCache.evictLoop s).heap i = some { e with refs := e.refs - 1 } ∧
    (LRUCache.evictLoop s).delLog.filter (fun x => x.1 = i) =
      s.delLog.filter (fun x => x.1 = i) := by
  have hstep : LRUCache.evictStep s i rest =
      { s with lru := rest
               table := alRemove s.table e.key
               heap := alSet s.heap i { e with refs := e.refs - 1 } } := by
    unfold LRUCache.evictStep LRUCache.Unref
    simp only [hheap]
    rw [if_neg (by omega)]
  have hloop : LRUCache.evictLoop s =
      LRUCache.evictLoopGo rest (LRUCache.evictStep s i rest) := by
    unfold LRUCache.evictLoop
    rw [hlru]
    show (if s.usage > s.capacity then
      LRUCache.evictLoopGo rest (LRUCache.evictStep s i rest) else s) = _
    rw [if_pos (by omega)]
  refine ⟨?_, ?_, ?_⟩
  · rw [hloop]
    exact LRUCache.evictLoopGo_lru rest _ (LRUCache.evictStep_lru s i rest)
  · rw [hloop]
    obtain ⟨h1, _⟩ := LRUCache.evictLoopGo_preserve rest (LRUCache.evictStep s i rest) i hnotin
    rw [h1, hstep]
    exact alGet_set_self s.heap i _ e hheap
  · rw [hloop]
    obtain ⟨_, h2⟩ := LRUCache.evictLoopGo_preserve rest (LRUCache.evictStep s i rest) i hnotin
    rw [h2, hstep]

/-- C3 witness: the amended eviction behaviour on a concrete over-capacity
shard whose LRU head is still referenced by a caller. -/
theorem c3_lru_eviction_witness :
    ((⟨[(0, ⟨[65], 10, 1, 2⟩), (1, ⟨[66], 20, 1, 2⟩)], [0, 1],
        [([65], 0), ([66], 1)], 2, 1, 2, []⟩ : CacheState).lru = 0 :: [1] ∧
      (0 : Nat) ∉ ([1] : List Nat) ∧
      alGet (⟨[(0, ⟨[65], 10, 1, 2⟩), (1, ⟨[66], 20, 1, 2⟩)], [0, 1],
        [([65], 0), ([66], 1)], 2, 1, 2, []⟩ : CacheState).heap 0 = some ⟨[65], 10, 1, 2⟩) ∧
    alGet (LRUCache.evictLoop (⟨[(0, ⟨[65], 10, 1, 2⟩), (1, ⟨[66], 20, 1, 2⟩)], [0, 1],
      [([65], 0), ([66], 1)], 2, 1, 2, []⟩ : CacheState)).heap 0 =
      some ⟨[65], 10, 1, 1⟩ :=
  ⟨⟨rfl, by decide, by decide⟩,
    (c3_lru_eviction ⟨[(0, ⟨[65], 10, 1, 2⟩), (1, ⟨[66], 20, 1, 2⟩)], [0, 1],
        [([65], 0), ([66], 1)], 2, 1, 2, []⟩ 0 [1] ⟨[65], 10, 1, 2⟩
      rfl (by decide) (by decide) (by decide) (by decide)).2.1⟩

/-- C9: an entry erased (or replaced by a later insert of the same key)
while one caller handle is outstanding stays allocated with its value
readable and the deleter not yet invoked; the caller's `Release` then fires
the deleter exactly once on the entry's key and value and frees it. -/
theorem c9_deferred_free (s : CacheState) (key : List Nat) (i : Nat) (e : CEntry)
    (htab : alGet s.table key = some i) (hheap : alGet s.heap i = some e)
    (hrefs : e.refs = 2)
    (hheapnodup : (s.heap.map Prod.fst).Nodup)
    (hlrunodup : s.lru.Nodup)
    (hlrub : ∀ j ∈ s.lru, j < s.nextId)
    (hid : i < s.nextId) :
    alGet (LRUCache.Erase s key).heap i = some { e with refs := 1 } ∧
    (LRUCache.Erase s key).delLog = s.delLog ∧
    (LRUCache.Release (LRUCache.Erase s key) i).delLog = s.delLog ++ [(i, e.key, e.value)] ∧
    alGet (LRUCache.Release (LRUCache.Erase s key) i).heap i = none ∧
    (∀ v c, alGet (LRUCache.Insert s key v c).1.heap i = some { e with refs := 1 } ∧
      (LRUCache.Insert s key v c).1.delLog.filter (fun x => x.1 = i) =
        s.delLog.filter (fun x => x.1 = i)) := by
  have herase : LRUCache.Erase s key =
      { s with table := alRemove s.table key
               lru := s.lru.erase i
               heap := alSet s.heap i { e with refs := 1 } } := by
    unfold LRUCache.Erase LRUCache.Unref
    rw [htab]
    simp only [hheap]
    rw [if_neg (by omega)]
    rw [hrefs]
  have h1 : alGet (LRUCache.Erase s key).heap i = some { e with refs := 1 } := by
    rw [herase]
    exact alGet_set_self s.heap i _ e hheap
  have hrel : LRUCache.Release (LRUCache.Erase s key) i =
      { LRUCache.Erase s key with
          usage := (LRUCache.Erase s key).usage - e.charge
          delLog := (LRUCache.Erase s key).delLog ++ [(i, e.key, e.value)]
          heap := alRemove (LRUCache.Erase s key).heap i } := by
    unfold LRUCache.Release LRUCache.Unref
    simp only [h1]
    rw [if_pos (by norm_num)]
  refine ⟨h1, by rw [herase], ?_, ?_, ?_⟩
  · rw [hrel, herase]
  · rw [hrel]
    show alGet (alRemove (LRUCache.Erase s key).heap i) i = none
    apply alGet_remove_self
    rw [herase]
    show ((alSet s.heap i { e with refs := 1 }).map Prod.fst).Nodup
    rw [alSet_map_fst]
    exact hheapnodup
  · intro v c
    have hnewlru : ((s.lru ++ [s.nextId]).erase i) = (s.lru ++ [s.nextId]).erase i := rfl
    have hnodup2 : (s.lru ++ [s.nextId]).Nodup := by
      refine List.Nodup.append hlrunodup (List.nodup_singleton _) ?_
      intro j hj hj'
      rw [List.mem_singleton] at hj'
      exact absurd (hj' ▸ hlrub j hj) (by omega)
    have hnotin : i ∉ (s.lru ++ [s.nextId]).erase i := hnodup2.not_mem_erase
    have hins : (LRUCache.Insert s key v c).1 =
        LRUCache.evictLoop
          { s with heap := alSet (s.heap ++ [(s.nextId, ⟨key, v, c, 2⟩)]) i { e with refs := 1 }
                   nextId := s.nextId + 1
                   lru := (s.lru ++ [s.nextId]).erase i
                   usage := s.usage + c
                   table := alSet s.table key s.nextId } := by
      unfold LRUCache.Insert LRUCache.Unref
      simp only [htab]
      simp only [alGet_append_of_some s.heap [(s.nextId, ⟨key, v, c, 2⟩)] i e hheap]
      rw [if_neg (by omega)]
      rw [hrefs]
    rw [hins]
    unfold LRUCache.evictLoop
    obtain ⟨hp1, hp2⟩ := LRUCache.evictLoopGo_preserve ((s.lru ++ [s.nextId]).erase i) _ i hnotin
    constructor
    · rw [hp1]
      show alGet (alSet (s.heap ++ [(s.nextId, ⟨key, v, c, 2⟩)]) i { e with refs := 1 }) i =
        some { e with refs := 1 }
      exact alGet_set_self _ i _ e (alGet_append_of_some s.heap _ i e hheap)
    · rw [hp2]

/-- C9 witness: a one-entry shard whose caller holds a handle (refs = 2);
erasing and then releasing shows deferred free and a single deleter firing. -/
theorem c9_deferred_free_witness :
    (alGet (⟨[(0, ⟨[65], 7, 1, 2⟩)], [0], [([65], 0)], 1, 10, 1, []⟩ : CacheState).table [65] =
        some 0 ∧
      alGet (⟨[(0, ⟨[65], 7, 1, 2⟩)], [0], [([65], 0)], 1, 10, 1, []⟩ : CacheState).heap 0 =
        some ⟨[65], 7, 1, 2⟩) ∧
    alGet (LRUCache.Erase
      (⟨[(0, ⟨[65], 7, 1, 2⟩)], [0], [([65], 0)], 1, 10, 1, []⟩ : CacheState) [65]).heap 0 =
      some ⟨[65], 7, 1, 1⟩ ∧
    (LRUCache.Release (LRUCache.Erase
      (⟨[(0, ⟨[65], 7, 1, 2⟩)], [0], [([65], 0)], 1, 10, 1, []⟩ : CacheState) [65]) 0).delLog =
      [(0, [65], 7)] ∧
    alGet (LRUCache.Release (LRUCache.Erase
      (⟨[(0, ⟨[65], 7, 1, 2⟩)], [0], [([65], 0)], 1, 10, 1, []⟩ : CacheState) [65]) 0).heap 0 =
      none :=
  ⟨⟨by decide, by decide⟩,
    (c9_deferred_free ⟨[(0, ⟨[65], 7, 1, 2⟩)], [0], [([65], 0)], 1, 10, 1, []⟩ [65] 0
      ⟨[65], 7, 1, 2⟩ (by decide) (by decide) (by decide) (by decide) (by decide)
      (by decide) (by decide)).1,
    (c9_deferred_free ⟨[(0, ⟨[65], 7, 1, 2⟩)], [0], [([65], 0)], 1, 10, 1, []⟩ [65] 0
      ⟨[65], 7, 1, 2⟩ (by decide) (by decide) (by decide) (by decide) (by decide)
      (by decide) (by decide)).2.2.1,
    (c9_deferred_free ⟨[(0, ⟨[65], 7, 1, 2⟩)], [0], [([65], 0)], 1, 10, 1, []⟩ [65] 0
      ⟨[65], 7, 1, 2⟩ (by decide) (by decide) (by decide) (by decide) (by decide)
      (by decide) (by decide)).2.2.2.1⟩
